import Mathlib

/-!
Verification of the recipe-batching and inventory dashboard (src/app.py).

The development shallowly embeds the data model and the pure core of the
program: JSON-like Python values become the inductive type `PyVal`
(numbers idealized as exact rationals), Python dicts become association
lists in insertion order, functions that can raise become
`Option`/`Except`-valued functions, and `round(x, 2)` becomes exact
round-half-to-even on rationals.  Each definition carries a comment
pointing at the source lines it embeds.
-/

namespace IceCream

/-- A Python/JSON-like value.  Numbers (int and float alike) are modelled as
exact rationals; dicts keep insertion order as association lists. -/
inductive PyVal where
  | none : PyVal
  | bool : Bool → PyVal
  | num : ℚ → PyVal
  | str : String → PyVal
  | list : List PyVal → PyVal
  | dict : List (String × PyVal) → PyVal

/-- First-match lookup in an association list: `d.get(k)` on a Python dict
(which never has duplicate keys). -/
def lookupA {β : Type} : List (String × β) → String → Option β
  | [], _ => Option.none
  | (k', v) :: rest, k => if k' = k then some v else lookupA rest k

/-- `d[k] = v` on a Python dict: replace the first binding of `k` in place,
or append a new binding at the end (insertion order). -/
def setk : List (String × PyVal) → String → PyVal → List (String × PyVal)
  | [], k, v => [(k, v)]
  | (k', v') :: rest, k, v =>
      if k' = k then (k, v) :: rest else (k', v') :: setk rest k v

/-- `d.setdefault(k, v)` on a Python dict: append the binding only when the
key is absent. -/
def sdefault (d : List (String × PyVal)) (k : String) (v : PyVal) :
    List (String × PyVal) :=
  if (lookupA d k).isSome then d else d ++ [(k, v)]

/-- Python truthiness of a value. -/
def pyTruthy : PyVal → Bool
  | PyVal.none => false
  | PyVal.bool b => b
  | PyVal.num q => decide (q ≠ 0)
  | PyVal.str s => decide (s ≠ "")
  | PyVal.list [] => false
  | PyVal.list (_ :: _) => true
  | PyVal.dict [] => false
  | PyVal.dict (_ :: _) => true

/-- Python `a or b`. -/
def pyOr (a b : PyVal) : PyVal := if pyTruthy a then a else b

/-- The string carried by a `str` value, if any. -/
def asStr : PyVal → Option String
  | PyVal.str s => some s
  | _ => Option.none

/-- Nat value of a list of decimal digit characters. -/
def digitsToNat (l : List Char) : ℕ :=
  l.foldl (fun n c => 10 * n + (c.toNat - 48)) 0

/-- Parse an unsigned decimal literal (`digits`, `digits.digits`, `.digits`,
`digits.`).  Models the grammar of plain decimal arguments accepted by
Python's `float(...)`; anything else fails (as `float("abc")` raises). -/
def parseDecCore (l : List Char) : Option ℚ :=
  match l.span Char.isDigit with
  | (ds, []) => if ds = [] then Option.none else some (digitsToNat ds)
  | (ds, '.' :: fs) =>
      if fs.all Char.isDigit ∧ (ds ≠ [] ∨ fs ≠ []) then
        some ((digitsToNat ds : ℚ) + (digitsToNat fs : ℚ) / 10 ^ fs.length)
      else Option.none
  | _ => Option.none

/-- Python `float(str)` on plain decimal literals, with optional sign. -/
def pyStrToFloat (s : String) : Option ℚ :=
  match s.data with
  | '-' :: rest => (parseDecCore rest).map Neg.neg
  | '+' :: rest => parseDecCore rest
  | l => parseDecCore l

/-- Python `float(v)`: succeeds on numbers, booleans and numeric strings,
raises (`Option.none`) on `None`, lists, dicts and non-numeric strings. -/
def pyFloat : PyVal → Option ℚ
  | PyVal.num q => some q
  | PyVal.bool b => some (if b then 1 else 0)
  | PyVal.str s => pyStrToFloat s
  | _ => Option.none

/-- ASCII lowercasing of one character (the fragment of `str.lower` the
persisted unit strings exercise). -/
def lowerChar (c : Char) : Char :=
  if 65 ≤ c.toNat ∧ c.toNat ≤ 90 then Char.ofNat (c.toNat + 32) else c

/-- Python `s.lower()` (ASCII fragment). -/
def pyLower (s : String) : String := ⟨s.data.map lowerChar⟩

/-- `UNIT_OPTIONS` (src/app.py lines 71-77): the display-unit vocabulary for
thresholds. -/
def UNIT_OPTIONS : List String := ["cans", "50lbs bags", "grams", "liters", "gallons"]

/-- One entry of `normalize_inventory_schema` (src/app.py lines 144-155).
Returns the normalized value and whether this entry was a legacy upgrade;
`Option.none` models an exception escaping from `float(...)` or `.lower()`. -/
def invNormDict (d : List (String × PyVal)) : Option (PyVal × Bool) :=
  match pyFloat ((lookupA d "amount").getD (PyVal.num 0)),
        asStr (pyOr ((lookupA d "unit").getD PyVal.none) (PyVal.str "g")) with
  | some amt, some u =>
      some (PyVal.dict [("amount", PyVal.num amt), ("unit", PyVal.str (pyLower u))], false)
  | _, _ => Option.none

/-- The non-dict (legacy) branch of `normalize_inventory_schema`:
`float(v or 0)` with default unit `"g"`, flagged as changed. -/
def invNormEntry : PyVal → Option (PyVal × Bool)
  | PyVal.dict d => invNormDict d
  | v =>
      (pyFloat (pyOr v (PyVal.num 0))).map
        (fun amt => (PyVal.dict [("amount", PyVal.num amt), ("unit", PyVal.str "g")], true))

/-- `normalize_inventory_schema` (src/app.py lines 144-155) over the items of
the input dict; the boolean is the `changed` flag. -/
def normalizeInventorySchema : List (String × PyVal) → Option (List (String × PyVal) × Bool)
  | [] => some ([], false)
  | (k, v) :: rest =>
      match invNormEntry v, normalizeInventorySchema rest with
      | some (nv, ch), some (tail, ch') => some ((k, nv) :: tail, ch || ch')
      | _, _ => Option.none

/-- One entry of `normalize_thresholds_schema` (src/app.py lines 100-113).
The dict branch keeps `min` uncoerced and falls back to `"grams"` when the
unit is not in `UNIT_OPTIONS`; the bare branch coerces through `float`. -/
def thrNormDict (d : List (String × PyVal)) : PyVal :=
  PyVal.dict
    [("min", (lookupA d "min").getD (PyVal.num 0)),
     ("unit",
       match (lookupA d "unit").getD (PyVal.str "grams") with
       | PyVal.str s => if s ∈ UNIT_OPTIONS then PyVal.str s else PyVal.str "grams"
       | _ => PyVal.str "grams")]

/-- The dispatch of `normalize_thresholds_schema` over one value: dicts are
repaired without coercion; `None` maps to `0.0`; any other value goes
through `float(val)`. -/
def thrNormEntry : PyVal → Option PyVal
  | PyVal.dict d => some (thrNormDict d)
  | PyVal.none => some (PyVal.dict [("min", PyVal.num 0), ("unit", PyVal.str "grams")])
  | v => (pyFloat v).map
      (fun m => PyVal.dict [("min", PyVal.num m), ("unit", PyVal.str "grams")])

/-- `normalize_thresholds_schema` (src/app.py lines 100-113) over the items
of the input dict. -/
def normalizeThresholdsSchema : List (String × PyVal) → Option (List (String × PyVal))
  | [] => some []
  | (k, v) :: rest =>
      match thrNormEntry v, normalizeThresholdsSchema rest with
      | some nv, some tail => some ((k, nv) :: tail)
      | _, _ => Option.none

/-- Values on which the inventory-entry normalization provably cannot raise:
`None`, booleans, numbers, and dicts whose `amount` is absent or numeric and
whose `unit` is absent, falsy, or a string. -/
def invGoodVal : PyVal → Bool
  | PyVal.none => true
  | PyVal.bool _ => true
  | PyVal.num _ => true
  | PyVal.dict d =>
      (match lookupA d "amount" with
       | Option.none => true
       | some (PyVal.num _) => true
       | some (PyVal.bool _) => true
       | some _ => false) &&
      (match lookupA d "unit" with
       | Option.none => true
       | some u => (asStr u).isSome || !pyTruthy u)
  | _ => false

/-- Values on which the threshold-entry normalization provably cannot raise:
any dict, `None`, booleans and numbers. -/
def thrGoodVal : PyVal → Bool
  | PyVal.dict _ => true
  | PyVal.none => true
  | PyVal.bool _ => true
  | PyVal.num _ => true
  | _ => false

/-- The `instruction` repair of `normalize_recipes_schema` (src/app.py lines
1554-1559): `None` becomes `[]`, a bare string is wrapped, anything else is
kept as is. -/
def normInstr : PyVal → PyVal
  | PyVal.none => PyVal.list []
  | PyVal.str s => PyVal.list [PyVal.str s]
  | v => v

/-- The shared repair of a recipe-like dict (src/app.py lines 1552-1559 and
1566-1572): default `ingredients` to an empty dict, then repair
`instruction` (absent defaults to `[]`). -/
def subBody (sd : List (String × PyVal)) : List (String × PyVal) :=
  setk (sdefault sd "ingredients" (PyVal.dict []))
    "instruction"
    (normInstr ((lookupA (sdefault sd "ingredients" (PyVal.dict [])) "instruction").getD
      (PyVal.list [])))

/-- Normalization of one subrecipe entry (src/app.py lines 1563-1572):
non-dict entries are skipped, dict entries get `ingredients` defaulted and
`instruction` repaired. -/
def normSub : PyVal → PyVal
  | PyVal.dict sd => PyVal.dict (subBody sd)
  | v => v

/-- A top-level recipe dict after its own-field repairs (src/app.py lines
1552-1561): `ingredients` defaulted, `instruction` repaired, `subrecipes`
defaulted. -/
def recBody (d : List (String × PyVal)) : List (String × PyVal) :=
  sdefault (subBody d) "subrecipes" (PyVal.dict [])

/-- Normalization of one recipe value (src/app.py lines 1549-1572): non-dict
entries are skipped (`continue`), dict entries get `ingredients` and
`subrecipes` defaulted and `instruction` repaired; iterating
`r["subrecipes"].items()` raises (`Option.none`) when the stored
`subrecipes` value is not a dict. -/
def normRecipeDict (d : List (String × PyVal)) : Option PyVal :=
  match lookupA (recBody d) "subrecipes" with
  | some (PyVal.dict subs) =>
      some (PyVal.dict (setk (recBody d) "subrecipes"
        (PyVal.dict (subs.map (fun p => (p.1, normSub p.2))))))
  | _ => Option.none

/-- Normalization of one recipe entry: the non-dict branch is the `continue`
of line 1550-1551 (the entry is kept unchanged). -/
def normalizeRecipe : PyVal → Option PyVal
  | PyVal.dict d => normRecipeDict d
  | v => some v

/-- `normalize_recipes_schema` (src/app.py lines 1548-1573) over the items of
the recipe-set dict. -/
def normalizeRecipesSchema : List (String × PyVal) → Option (List (String × PyVal))
  | [] => some []
  | (k, v) :: rest =>
      match normalizeRecipe v, normalizeRecipesSchema rest with
      | some v', some tail => some ((k, v') :: tail)
      | _, _ => Option.none

/-- Whether every element of a list is a string value. -/
def isStrList : List PyVal → Bool
  | [] => true
  | PyVal.str _ :: rest => isStrList rest
  | _ => false

/-- The Recipe invariant as the spec states it (spec.md section 3): the entry
is a mapping with all three keys present, `ingredients` a mapping,
`instruction` a sequence of strings, `subrecipes` a mapping. -/
def recipeInvariant (r : PyVal) : Bool :=
  match r with
  | PyVal.dict d =>
      (match lookupA d "ingredients" with
       | some (PyVal.dict _) => true
       | _ => false) &&
      (match lookupA d "instruction" with
       | some (PyVal.list l) => isStrList l
       | _ => false) &&
      (match lookupA d "subrecipes" with
       | some (PyVal.dict _) => true
       | _ => false)
  | _ => false

/-- Python's `round` to an integer: round-half-to-even (banker's rounding),
idealized over exact rationals. -/
def pyRound (x : ℚ) : ℤ :=
  if x - ⌊x⌋ < 1 / 2 then ⌊x⌋
  else if 1 / 2 < x - ⌊x⌋ then ⌊x⌋ + 1
  else if 2 ∣ ⌊x⌋ then ⌊x⌋ else ⌊x⌋ + 1

/-- Python's `round(x, 2)`, idealized over exact rationals. -/
def round2 (x : ℚ) : ℚ := (pyRound (100 * x) : ℚ) / 100

/-- `original_weight` (src/app.py line 2056 and `get_total_weight`, line
3344-3345): the sum of the base ingredient quantities.  Ingredient mappings
with numeric quantities are modelled as association lists over ℚ. -/
def origWeight (ings : List (String × ℚ)) : ℚ := (ings.map Prod.snd).sum

/-- `scaled` (src/app.py line 2142): every quantity multiplied by the scale
factor and rounded to 2 decimal places. -/
def scaledIngs (ings : List (String × ℚ)) (f : ℚ) : List (String × ℚ) :=
  ings.map (fun p => (p.1, round2 (p.2 * f)))

/-- The sum of the scaled, rounded quantities. -/
def sumScaled (ings : List (String × ℚ)) (f : ℚ) : ℚ :=
  ((scaledIngs ings f).map Prod.snd).sum

/-- `total_scaled` (src/app.py line 2143): the rounded sum of the scaled
quantities. -/
def totalScaled (ings : List (String × ℚ)) (f : ℚ) : ℚ := round2 (sumScaled ings f)

/-- The scale factor of the "Target batch weight" mode (src/app.py line
2071): `(target_weight / original_weight) if original_weight else 1.0`. -/
def uiTargetScaleFactor (W T : ℚ) : ℚ := if W ≠ 0 then T / W else 1

/-- `scale_recipe_to_target_weight` (src/app.py lines 3347-3351) restricted
to the ingredient mapping it scales: `Option.none` models the
`ZeroDivisionError` raised when the original weight is zero; otherwise the
quantities are rounded to whole numbers (`round(v * scale_factor)`). -/
def scaleRecipeToTargetWeight (ings : List (String × ℚ)) (T : ℚ) :
    Option (List (String × ℤ) × ℚ) :=
  if origWeight ings = 0 then Option.none
  else
    some (ings.map (fun p => (p.1, pyRound (p.2 * (T / origWeight ings)))), T / origWeight ings)

/-- The ratio list of `adjust_recipe_with_constraints` (src/app.py lines
3355-3356): `available / base` for every availability entry whose ingredient
exists in the base mapping with nonzero amount. -/
def ratioList (base avail : List (String × ℚ)) : List ℚ :=
  avail.filterMap (fun p =>
    match lookupA base p.1 with
    | some b => if b = 0 then Option.none else some (p.2 / b)
    | Option.none => Option.none)

/-- Python `min` over a nonempty list. -/
def listMin : List ℚ → Option ℚ
  | [] => Option.none
  | r :: rs => some (rs.foldl min r)

/-- The scale factor of `adjust_recipe_with_constraints` (src/app.py line
3357): `min(ratios) if ratios else 1`. -/
def constrScaleFactor (base avail : List (String × ℚ)) : ℚ :=
  (listMin (ratioList base avail)).getD 1

/-- The `adjusted` mapping of `adjust_recipe_with_constraints` (src/app.py
line 3358): every base quantity multiplied by the factor and rounded to a
whole number. -/
def adjustIngs (base : List (String × ℚ)) (f : ℚ) : List (String × ℤ) :=
  base.map (fun p => (p.1, pyRound (p.2 * f)))

/-- `adjust_recipe_with_constraints` (src/app.py lines 3353-3362) restricted
to the mapping and factor it computes. -/
def adjustRecipeWithConstraints (base avail : List (String × ℚ)) :
    List (String × ℤ) × ℚ :=
  (adjustIngs base (constrScaleFactor base avail), constrScaleFactor base avail)

/-- The walker session state (src/app.py lines 3006-3050): `step` is `None`
before a batch starts, and `order` is the snapshot of the scaled ingredient
names. -/
structure WalkerState where
  step : Option ℕ
  order : List String
  deriving DecidableEq

/-- One user transition of the batch walker (src/app.py lines 3022-3050).
`start` re-snapshots the ingredient order; `next`, `back` and `reset` are
rendered only while `step < len(order)` (in progress), `back` additionally
disabled at step 0; `startOver` is rendered only on the complete branch
(`step ≥ len(order)`) and keeps the captured order. -/
inductive WStep : WalkerState → WalkerState → Prop
  | start (s : WalkerState) (newOrder : List String) :
      WStep s ⟨some 0, newOrder⟩
  | next (s : WalkerState) (k : ℕ) (h : s.step = some k)
      (hlt : k < s.order.length) : WStep s ⟨some (k + 1), s.order⟩
  | back (s : WalkerState) (k : ℕ) (h : s.step = some k)
      (hlt : k < s.order.length) (hne : k ≠ 0) :
      WStep s ⟨some (k - 1), s.order⟩
  | reset (s : WalkerState) (k : ℕ) (h : s.step = some k)
      (hlt : k < s.order.length) : WStep s ⟨Option.none, s.order⟩
  | startOver (s : WalkerState) (k : ℕ) (h : s.step = some k)
      (hge : s.order.length ≤ k) : WStep s ⟨some 0, s.order⟩

/-- Reachability of a walker state through user transitions. -/
def WalkerReachable (init s : WalkerState) : Prop :=
  Relation.ReflTransGen WStep init s

/-- The observable state of a persisted JSON document: missing file, file
present but failing to parse, or parsed content. -/
inductive FileState where
  | absent : FileState
  | corrupt : FileState
  | content : PyVal → FileState

/-- `load_json` (src/app.py lines 79-86 and 130-138): missing file gives the
default, and the `except` handler turns a decode error into the default as
well, so the result channel never carries an error. -/
def loadJson (fs : FileState) (default : PyVal) : Except String PyVal :=
  match fs with
  | FileState.absent => Except.ok default
  | FileState.corrupt => Except.ok default
  | FileState.content v => Except.ok v

/-- `load_recipes` (src/app.py lines 16-19): no handler around `json.load`,
so a decode error propagates and halts that load; a missing file is caught
earlier (lines 23-26) as a fatal configuration error. -/
def loadRecipes (fs : FileState) : Except String PyVal :=
  match fs with
  | FileState.absent => Except.error "missing recipes file"
  | FileState.corrupt => Except.error "JSONDecodeError"
  | FileState.content v => Except.ok v

/-! ### Association-list lemmas -/

theorem lookupA_setk_self (d : List (String × PyVal)) (k : String) (v : PyVal) :
    lookupA (setk d k v) k = some v := by
  induction d with
  | nil => simp [setk, lookupA]
  | cons p rest ih =>
      obtain ⟨k', v'⟩ := p
      by_cases h : k' = k
      · simp [setk, h, lookupA]
      · simp [setk, h, lookupA, ih]

theorem lookupA_setk_ne (d : List (String × PyVal)) (k' k : String) (v : PyVal)
    (hne : k' ≠ k) : lookupA (setk d k' v) k = lookupA d k := by
  induction d with
  | nil => simp [setk, lookupA, hne]
  | cons p rest ih =>
      obtain ⟨k₀, v₀⟩ := p
      by_cases h : k₀ = k'
      · simp [setk, h, lookupA, hne]
      · simp [setk, h, lookupA, ih]

theorem setk_self (d : List (String × PyVal)) (k : String) (v : PyVal)
    (h : lookupA d k = some v) : setk d k v = d := by
  induction d with
  | nil => simp [lookupA] at h
  | cons p rest ih =>
      obtain ⟨k₀, v₀⟩ := p
      by_cases hk : k₀ = k
      · subst hk
        simp [lookupA] at h
        simp [setk, h]
      · simp [lookupA, hk] at h
        simp [setk, hk, ih h]

theorem lookupA_append_none {β : Type} (d l : List (String × β)) (k : String)
    (h : lookupA d k = Option.none) : lookupA (d ++ l) k = lookupA l k := by
  induction d with
  | nil => simp
  | cons p rest ih =>
      obtain ⟨k₀, v₀⟩ := p
      by_cases hk : k₀ = k
      · simp [lookupA, hk] at h
      · simp [lookupA, hk] at h ⊢
        exact ih h

theorem lookupA_append_left {β : Type} (d l : List (String × β)) (k : String)
    (w : β) (h : lookupA d k = some w) : lookupA (d ++ l) k = some w := by
  induction d with
  | nil => simp [lookupA] at h
  | cons p rest ih =>
      obtain ⟨k₀, v₀⟩ := p
      by_cases hk : k₀ = k
      · simp [lookupA, hk] at h ⊢
        exact h
      · simp [lookupA, hk] at h ⊢
        exact ih h

theorem sdefault_of_isSome (d : List (String × PyVal)) (k : String) (v : PyVal)
    (h : (lookupA d k).isSome) : sdefault d k v = d := by
  simp [sdefault, h]

theorem lookupA_sdefault_self (d : List (String × PyVal)) (k : String) (v : PyVal) :
    lookupA (sdefault d k v) k = some ((lookupA d k).getD v) := by
  unfold sdefault
  cases h : lookupA d k with
  | none => simp [h, lookupA_append_none d _ k h, lookupA]
  | some w => simp [h]

theorem lookupA_sdefault_ne (d : List (String × PyVal)) (k' k : String) (v : PyVal)
    (hne : k' ≠ k) : lookupA (sdefault d k' v) k = lookupA d k := by
  unfold sdefault
  split
  · rfl
  · cases h : lookupA d k with
    | none => simp [lookupA_append_none d _ k h, lookupA, hne]
    | some w => exact lookupA_append_left d _ k w h

/-! ### Recipe normalizer: structure and idempotence -/

theorem normInstr_idem (v : PyVal) : normInstr (normInstr v) = normInstr v := by
  cases v <;> rfl

theorem normInstr_ne_none (v : PyVal) : normInstr v ≠ PyVal.none := by
  cases v <;> simp [normInstr]

theorem asStr_normInstr (v : PyVal) : asStr (normInstr v) = Option.none := by
  cases v <;> rfl

theorem subBody_eq (sd : List (String × PyVal)) :
    subBody sd = setk (sdefault sd "ingredients" (PyVal.dict [])) "instruction"
      (normInstr ((lookupA (sdefault sd "ingredients" (PyVal.dict [])) "instruction").getD
        (PyVal.list []))) := rfl

theorem lookupA_subBody_ingredients (sd : List (String × PyVal)) :
    (lookupA (subBody sd) "ingredients").isSome := by
  rw [subBody_eq, lookupA_setk_ne _ _ _ _ (by decide), lookupA_sdefault_self]
  rfl

theorem lookupA_subBody_instruction (sd : List (String × PyVal)) :
    ∃ i, lookupA (subBody sd) "instruction" = some (normInstr i) :=
  ⟨_, lookupA_setk_self _ _ _⟩

theorem subBody_idem (sd : List (String × PyVal)) : subBody (subBody sd) = subBody sd := by
  obtain ⟨i, hi⟩ := lookupA_subBody_instruction sd
  conv_lhs => rw [subBody_eq]
  rw [sdefault_of_isSome _ _ _ (lookupA_subBody_ingredients sd), hi]
  simp only [Option.getD_some]
  rw [normInstr_idem]
  exact setk_self _ _ _ hi

theorem normSub_idem (s : PyVal) : normSub (normSub s) = normSub s := by
  cases s <;> simp [normSub, subBody_idem]

theorem lookupA_recBody_ingredients (d : List (String × PyVal)) :
    (lookupA (recBody d) "ingredients").isSome := by
  unfold recBody
  rw [lookupA_sdefault_ne _ _ _ _ (by decide)]
  exact lookupA_subBody_ingredients d

theorem lookupA_recBody_instruction (d : List (String × PyVal)) :
    ∃ i, lookupA (recBody d) "instruction" = some (normInstr i) := by
  obtain ⟨i, hi⟩ := lookupA_subBody_instruction d
  refine ⟨i, ?_⟩
  unfold recBody
  rw [lookupA_sdefault_ne _ _ _ _ (by decide)]
  exact hi

theorem lookupA_recBody_subrecipes (d : List (String × PyVal)) :
    (lookupA (recBody d) "subrecipes").isSome := by
  unfold recBody
  rw [lookupA_sdefault_self]
  rfl

/-- The shape of a successfully normalized top-level recipe dict. -/
theorem normRecipeDict_eq (d : List (String × PyVal)) (v' : PyVal)
    (h : normRecipeDict d = some v') :
    ∃ subs, lookupA (recBody d) "subrecipes" = some (PyVal.dict subs) ∧
      v' = PyVal.dict (setk (recBody d) "subrecipes"
        (PyVal.dict (subs.map (fun p => (p.1, normSub p.2))))) := by
  unfold normRecipeDict at h
  split at h
  case h_1 subs heq =>
    exact ⟨subs, heq, by injection h with h; exact h.symm⟩
  case h_2 => exact absurd h (by simp)

theorem map_normSub_idem (subs : List (String × PyVal)) :
    (subs.map (fun p => (p.1, normSub p.2))).map (fun p => (p.1, normSub p.2)) =
      subs.map (fun p => (p.1, normSub p.2)) := by
  induction subs with
  | nil => rfl
  | cons p rest ih => simp [normSub_idem, ih]

/-- Re-normalizing an already normalized recipe value is a no-op. -/
theorem normalizeRecipe_idem (v v' : PyVal) (h : normalizeRecipe v = some v') :
    normalizeRecipe v' = some v' := by
  cases v with
  | dict d =>
      obtain ⟨subs, hsub, hv'⟩ := normRecipeDict_eq d v' h
      subst hv'
      set subs' := subs.map (fun p => (p.1, normSub p.2)) with hsubs'
      set D := setk (recBody d) "subrecipes" (PyVal.dict subs') with hD
      have hDsub : lookupA D "subrecipes" = some (PyVal.dict subs') :=
        lookupA_setk_self _ _ _
      have hDing : (lookupA D "ingredients").isSome := by
        rw [hD, lookupA_setk_ne _ _ _ _ (by decide)]
        exact lookupA_recBody_ingredients d
      obtain ⟨i, hi⟩ := lookupA_recBody_instruction d
      have hDinstr : lookupA D "instruction" = some (normInstr i) := by
        rw [hD, lookupA_setk_ne _ _ _ _ (by decide)]
        exact hi
      have hsubD : subBody D = D := by
        rw [subBody_eq, sdefault_of_isSome _ _ _ hDing, hDinstr]
        simp only [Option.getD_some]
        rw [normInstr_idem]
        exact setk_self _ _ _ hDinstr
      have hrecD : recBody D = D := by
        unfold recBody
        rw [hsubD]
        exact sdefault_of_isSome _ _ _ (by rw [hDsub]; rfl)
      show normRecipeDict D = some (PyVal.dict D)
      unfold normRecipeDict
      rw [hrecD, hDsub]
      simp only
      rw [hsubs', map_normSub_idem, ← hsubs']
      rw [setk_self _ _ _ hDsub]
  | none =>
      simp [normalizeRecipe] at h
      subst h
      rfl
  | bool b =>
      simp [normalizeRecipe] at h
      subst h
      rfl
  | num q =>
      simp [normalizeRecipe] at h
      subst h
      rfl
  | str s =>
      simp [normalizeRecipe] at h
      subst h
      rfl
  | list l =>
      simp [normalizeRecipe] at h
      subst h
      rfl

/-- A successful output of the recipe-set normalizer is a fixed point. -/
theorem normalizeRecipesSchema_fixed (rs ys : List (String × PyVal))
    (h : normalizeRecipesSchema rs = some ys) :
    normalizeRecipesSchema ys = some ys := by
  induction rs generalizing ys with
  | nil =>
      simp [normalizeRecipesSchema] at h
      subst h
      rfl
  | cons p rest ih =>
      obtain ⟨k, v⟩ := p
      unfold normalizeRecipesSchema at h
      split at h
      case h_1 v' tail hv htail =>
        injection h with h
        subst h
        show normalizeRecipesSchema ((k, v') :: tail) = some ((k, v') :: tail)
        unfold normalizeRecipesSchema
        rw [normalizeRecipe_idem v v' hv, ih tail htail]
      case h_2 => exact absurd h (by simp)

/-- C6: `normalize_recipes_schema` is idempotent: applying the normalizer to
its own output (including the raised-exception outcome, propagated by
`bind`) is a no-op, for every input. -/
theorem recipes_normalizer_idempotent (x : List (String × PyVal)) :
    (normalizeRecipesSchema x).bind normalizeRecipesSchema = normalizeRecipesSchema x := by
  cases h : normalizeRecipesSchema x with
  | none => rfl
  | some ys => simpa using normalizeRecipesSchema_fixed x ys h

theorem normalizeRecipe_dict_shape (v v' : PyVal) (h : normalizeRecipe v = some v') :
    ∀ D, v' = PyVal.dict D →
      (lookupA D "ingredients").isSome ∧
      (∃ subs, lookupA D "subrecipes" = some (PyVal.dict subs)) ∧
      (∃ i, lookupA D "instruction" = some i ∧ i ≠ PyVal.none ∧ asStr i = Option.none) := by
  cases v with
  | dict d =>
      obtain ⟨subs, hsub, hv'⟩ := normRecipeDict_eq d v' h
      subst hv'
      intro D hD
      injection hD with hD
      subst hD
      refine ⟨?_, ⟨_, lookupA_setk_self _ _ _⟩, ?_⟩
      · rw [lookupA_setk_ne _ _ _ _ (by decide)]
        exact lookupA_recBody_ingredients d
      · obtain ⟨i, hi⟩ := lookupA_recBody_instruction d
        refine ⟨normInstr i, ?_, normInstr_ne_none i, asStr_normInstr i⟩
        rw [lookupA_setk_ne _ _ _ _ (by decide)]
        exact hi
  | none =>
      simp [normalizeRecipe] at h
      subst h
      intro D hD
      simp at hD
  | bool b =>
      simp [normalizeRecipe] at h
      subst h
      intro D hD
      simp at hD
  | num q =>
      simp [normalizeRecipe] at h
      subst h
      intro D hD
      simp at hD
  | str s =>
      simp [normalizeRecipe] at h
      subst h
      intro D hD
      simp at hD
  | list l =>
      simp [normalizeRecipe] at h
      subst h
      intro D hD
      simp at hD

theorem normalizeRecipe_nondict (v v' : PyVal) (h : normalizeRecipe v = some v')
    (hnd : ∀ d, v' ≠ PyVal.dict d) : v' = v := by
  cases v with
  | dict d =>
      obtain ⟨subs, hsub, hv'⟩ := normRecipeDict_eq d v' h
      exact absurd hv' (hnd _)
  | none => simpa [normalizeRecipe] using h.symm
  | bool b => simpa [normalizeRecipe] using h.symm
  | num q => simpa [normalizeRecipe] using h.symm
  | str s => simpa [normalizeRecipe] using h.symm
  | list l => simpa [normalizeRecipe] using h.symm

/-- C1 (amended): whenever `normalize_recipes_schema` returns, every output
entry that is a mapping has all three keys present, with `subrecipes` a
mapping and `instruction` neither null nor a bare string; entries that are
not mappings pass through unchanged rather than being repaired. -/
theorem recipes_entries_wellformed (rs ys : List (String × PyVal))
    (h : normalizeRecipesSchema rs = some ys) :
    (∀ k d, (k, PyVal.dict d) ∈ ys →
      (lookupA d "ingredients").isSome ∧
      (∃ subs, lookupA d "subrecipes" = some (PyVal.dict subs)) ∧
      (∃ i, lookupA d "instruction" = some i ∧ i ≠ PyVal.none ∧ asStr i = Option.none)) ∧
    (∀ k v, (k, v) ∈ ys → (∀ d, v ≠ PyVal.dict d) → (k, v) ∈ rs) := by
  induction rs generalizing ys with
  | nil =>
      simp [normalizeRecipesSchema] at h
      subst h
      exact ⟨by simp, by simp⟩
  | cons p rest ih =>
      obtain ⟨k₀, v₀⟩ := p
      unfold normalizeRecipesSchema at h
      split at h
      case h_1 v' tail hv htail =>
        injection h with h
        subst h
        obtain ⟨ih1, ih2⟩ := ih tail htail
        constructor
        · intro k d hk
          rcases List.mem_cons.mp hk with hk | hk
          · have := normalizeRecipe_dict_shape v₀ v' hv d
            injection hk with hk1 hk2
            exact this (by rw [hk2])
          · exact ih1 k d hk
        · intro k v hk hnd
          rcases List.mem_cons.mp hk with hk | hk
          · injection hk with hk1 hk2
            subst hk1
            subst hk2
            have := normalizeRecipe_nondict v₀ v hv hnd
            subst this
            exact List.mem_cons_self _ _
          · exact List.mem_cons_of_mem _ (ih2 k v hk hnd)
      case h_2 => exact absurd h (by simp)

/-- C1 counterexample: the input `{"a": 5}` normalizes successfully to
itself, but its sole entry is not a mapping and violates the Recipe
invariant, so not every output entry satisfies the invariant. -/
theorem recipes_invariant_counterexample :
    normalizeRecipesSchema [("a", PyVal.num 5)] = some [("a", PyVal.num 5)] ∧
    ¬ (∀ p ∈ [("a", PyVal.num 5)], recipeInvariant p.2 = true) := by
  refine ⟨rfl, fun hall => ?_⟩
  have := hall ("a", PyVal.num 5) (by simp)
  simp [recipeInvariant] at this

/-- C1 witness: the amended theorem applied to the concrete input
`{"a": 5, "r": {}}`. -/
theorem recipes_wellformed_witness :
    normalizeRecipesSchema [("a", PyVal.num 5), ("r", PyVal.dict [])] =
      some [("a", PyVal.num 5),
        ("r", PyVal.dict [("ingredients", PyVal.dict []), ("instruction", PyVal.list []),
          ("subrecipes", PyVal.dict [])])] ∧
    (lookupA [("ingredients", PyVal.dict []), ("instruction", PyVal.list []),
      ("subrecipes", PyVal.dict [])] "ingredients").isSome = true := by
  refine ⟨rfl, ?_⟩
  exact ((recipes_entries_wellformed [("a", PyVal.num 5), ("r", PyVal.dict [])]
    [("a", PyVal.num 5),
      ("r", PyVal.dict [("ingredients", PyVal.dict []), ("instruction", PyVal.list []),
        ("subrecipes", PyVal.dict [])])] rfl).1 "r"
    [("ingredients", PyVal.dict []), ("instruction", PyVal.list []),
      ("subrecipes", PyVal.dict [])] (by simp)).1

/-! ### Inventory normalizer: round trip -/

theorem toNat_ofNat_valid (n : ℕ) (h : n.isValidChar) : (Char.ofNat n).toNat = n := by
  unfold Char.ofNat
  split
  · rfl
  · exact absurd h (by assumption)

theorem lowerChar_idem (c : Char) : lowerChar (lowerChar c) = lowerChar c := by
  unfold lowerChar
  split
  case isTrue h =>
    have ht : (Char.ofNat (c.toNat + 32)).toNat = c.toNat + 32 :=
      toNat_ofNat_valid _ (Or.inl (by omega))
    rw [if_neg (by omega)]
  case isFalse h => rfl

theorem map_lowerChar_idem (l : List Char) :
    (l.map lowerChar).map lowerChar = l.map lowerChar := by
  induction l with
  | nil => rfl
  | cons c rest ih => simp [lowerChar_idem c, ih]

theorem pyLower_idem (s : String) : pyLower (pyLower s) = pyLower s := by
  show String.mk ((s.data.map lowerChar).map lowerChar) = String.mk (s.data.map lowerChar)
  rw [map_lowerChar_idem]

theorem pyLower_ne_empty (s : String) (h : s ≠ "") : pyLower s ≠ "" := by
  intro he
  apply h
  cases s with
  | mk l =>
      cases l with
      | nil => rfl
      | cons c rest => exact absurd (congrArg String.data he) (by simp [pyLower])

theorem asStr_pyOr_g (a : PyVal) (u : String)
    (h : asStr (pyOr a (PyVal.str "g")) = some u) : u ≠ "" := by
  unfold pyOr at h
  split at h
  case isTrue ht =>
    cases a <;> simp [asStr] at h
    case str s =>
      subst h
      simpa [pyTruthy] using ht
  case isFalse hf =>
    simp [asStr] at h
    subst h
    decide

/-- A successful inventory entry is a dict with a numeric `amount` and a
nonempty, already-lowercased `unit` string. -/
theorem invNormEntry_shape (v v' : PyVal) (ch : Bool)
    (h : invNormEntry v = some (v', ch)) :
    ∃ amt u, v' = PyVal.dict [("amount", PyVal.num amt), ("unit", PyVal.str u)] ∧
      u ≠ "" ∧ pyLower u = u := by
  cases v with
  | dict d =>
      have hd : invNormDict d = some (v', ch) := h
      unfold invNormDict at hd
      split at hd
      case h_1 amt u₀ hf hu =>
        injection hd with hd
        injection hd with h1 h2
        refine ⟨amt, pyLower u₀, h1.symm, ?_, pyLower_idem u₀⟩
        exact pyLower_ne_empty u₀ (asStr_pyOr_g _ u₀ hu)
      case h_2 => exact absurd hd (by simp)
  | none =>
      simp [invNormEntry, Option.map_eq_some'] at h
      obtain ⟨amt, hf, h1, h2⟩ := h
      exact ⟨amt, "g", h1.symm, by decide, by decide⟩
  | bool b =>
      simp [invNormEntry, Option.map_eq_some'] at h
      obtain ⟨amt, hf, h1, h2⟩ := h
      exact ⟨amt, "g", h1.symm, by decide, by decide⟩
  | num q =>
      simp [invNormEntry, Option.map_eq_some'] at h
      obtain ⟨amt, hf, h1, h2⟩ := h
      exact ⟨amt, "g", h1.symm, by decide, by decide⟩
  | str s =>
      simp [invNormEntry, Option.map_eq_some'] at h
      obtain ⟨amt, hf, h1, h2⟩ := h
      exact ⟨amt, "g", h1.symm, by decide, by decide⟩
  | list l =>
      simp [invNormEntry, Option.map_eq_some'] at h
      obtain ⟨amt, hf, h1, h2⟩ := h
      exact ⟨amt, "g", h1.symm, by decide, by decide⟩

theorem invNormEntry_fixed (v v' : PyVal) (ch : Bool)
    (h : invNormEntry v = some (v', ch)) : invNormEntry v' = some (v', false) := by
  obtain ⟨amt, u, hv', hu, hlow⟩ := invNormEntry_shape v v' ch h
  subst hv'
  show invNormDict _ = _
  unfold invNormDict
  simp [lookupA, pyOr, pyTruthy, asStr, pyFloat, hu, hlow]

/-- C7: `normalize_inventory_schema` applied to its own successful output
returns the identical mapping with the `changed` flag `False`. -/
theorem inventory_roundtrip (raw inv : List (String × PyVal)) (ch : Bool)
    (h : normalizeInventorySchema raw = some (inv, ch)) :
    normalizeInventorySchema inv = some (inv, false) := by
  induction raw generalizing inv ch with
  | nil =>
      simp [normalizeInventorySchema] at h
      obtain ⟨h1, h2⟩ := h
      subst h1
      rfl
  | cons p rest ih =>
      obtain ⟨k, v⟩ := p
      unfold normalizeInventorySchema at h
      split at h
      case h_1 nv ch₁ tail ch₂ hv htail =>
        injection h with h
        cases h
        show normalizeInventorySchema ((k, nv) :: tail) = some ((k, nv) :: tail, false)
        unfold normalizeInventorySchema
        rw [invNormEntry_fixed v nv ch₁ hv, ih tail ch₂ htail]
        rfl
      case h_2 => exact absurd h (by simp)

/-- C7 witness: the round trip on the legacy input `{"milk": 250}`, which
upgrades to `{"milk": {"amount": 250, "unit": "g"}}` with `changed = True`
and is then a fixed point with `changed = False`. -/
theorem inventory_roundtrip_witness :
    normalizeInventorySchema [("milk", PyVal.num 250)] =
      some ([("milk", PyVal.dict [("amount", PyVal.num 250), ("unit", PyVal.str "g")])], true) ∧
    normalizeInventorySchema
        [("milk", PyVal.dict [("amount", PyVal.num 250), ("unit", PyVal.str "g")])] =
      some ([("milk", PyVal.dict [("amount", PyVal.num 250), ("unit", PyVal.str "g")])], false) :=
  ⟨rfl, inventory_roundtrip [("milk", PyVal.num 250)]
    [("milk", PyVal.dict [("amount", PyVal.num 250), ("unit", PyVal.str "g")])] true rfl⟩

/-! ### Totality and key preservation of the record normalizers -/


theorem invNormEntry_total (v : PyVal) (hg : invGoodVal v = true) :
    (invNormEntry v).isSome = true := by
  cases v with
  | none => rfl
  | bool b => cases b <;> rfl
  | num q =>
      show ((pyFloat (pyOr (PyVal.num q) (PyVal.num 0))).map
        (fun amt => (PyVal.dict [("amount", PyVal.num amt), ("unit", PyVal.str "g")], true))).isSome = true
      unfold pyOr
      split <;> rfl
  | str s => simp [invGoodVal] at hg
  | list l => simp [invGoodVal] at hg
  | dict d =>
      simp only [invGoodVal, Bool.and_eq_true] at hg
      obtain ⟨ha, hu⟩ := hg
      show (invNormDict d).isSome = true
      unfold invNormDict
      have hf : (pyFloat ((lookupA d "amount").getD (PyVal.num 0))).isSome = true := by
        cases hl : lookupA d "amount" with
        | none => rfl
        | some w =>
            rw [hl] at ha
            cases w <;> simp_all [pyFloat]
      have hs : (asStr (pyOr ((lookupA d "unit").getD PyVal.none) (PyVal.str "g"))).isSome = true := by
        cases hl : lookupA d "unit" with
        | none => rfl
        | some u =>
            rw [hl] at hu
            simp only [Option.getD_some]
            unfold pyOr
            split
            case isTrue ht =>
              rcases Bool.or_eq_true _ _ |>.mp hu with h | h
              · exact h
              · rw [ht] at h
                simp at h
            case isFalse => rfl
      obtain ⟨amt, hamt⟩ := Option.isSome_iff_exists.mp hf
      obtain ⟨u, hu'⟩ := Option.isSome_iff_exists.mp hs
      rw [hamt, hu']
      rfl

theorem thrNormEntry_total (v : PyVal) (hg : thrGoodVal v = true) :
    (thrNormEntry v).isSome = true := by
  cases v with
  | none => rfl
  | bool b => rfl
  | num q => rfl
  | dict d => rfl
  | str s => simp [thrGoodVal] at hg
  | list l => simp [thrGoodVal] at hg

/-- C5 (amended): the record normalizers are total on well-shaped values. -/
theorem record_normalizers_total_on_clean_inputs :
    (∀ x : List (String × PyVal), (∀ p ∈ x, invGoodVal p.2 = true) →
      (normalizeInventorySchema x).isSome = true) ∧
    (∀ x : List (String × PyVal), (∀ p ∈ x, thrGoodVal p.2 = true) →
      (normalizeThresholdsSchema x).isSome = true) := by
  constructor
  · intro x hx
    induction x with
    | nil => rfl
    | cons p rest ih =>
        obtain ⟨k, v⟩ := p
        obtain ⟨⟨nv, ch⟩, hv⟩ := Option.isSome_iff_exists.mp
          (invNormEntry_total v (hx (k, v) (by simp)))
        obtain ⟨⟨tail, ch'⟩, ht⟩ := Option.isSome_iff_exists.mp
          (ih (fun q hq => hx q (List.mem_cons_of_mem _ hq)))
        unfold normalizeInventorySchema
        rw [hv, ht]
        rfl
  · intro x hx
    induction x with
    | nil => rfl
    | cons p rest ih =>
        obtain ⟨k, v⟩ := p
        obtain ⟨nv, hv⟩ := Option.isSome_iff_exists.mp
          (thrNormEntry_total v (hx (k, v) (by simp)))
        obtain ⟨tail, ht⟩ := Option.isSome_iff_exists.mp
          (ih (fun q hq => hx q (List.mem_cons_of_mem _ hq)))
        unfold normalizeThresholdsSchema
        rw [hv, ht]
        rfl

/-- C5 counterexample: both record normalizers raise on a non-numeric string
value (`float("abc")` raises `ValueError`), so they are not total. -/
theorem record_normalizers_raise_on_nonnumeric_string :
    normalizeInventorySchema [("x", PyVal.str "abc")] = Option.none ∧
    normalizeThresholdsSchema [("x", PyVal.str "abc")] = Option.none := ⟨rfl, rfl⟩

/-- C5 witness: totality applied to a concrete clean input. -/
theorem record_normalizers_total_witness :
    (∀ p ∈ [("milk", PyVal.num 250),
        ("x", PyVal.dict [("amount", PyVal.num 1), ("unit", PyVal.str "KG")])],
      invGoodVal p.2 = true) ∧
    (normalizeInventorySchema [("milk", PyVal.num 250),
        ("x", PyVal.dict [("amount", PyVal.num 1), ("unit", PyVal.str "KG")])]).isSome = true :=
  ⟨by decide, record_normalizers_total_on_clean_inputs.1 _ (by decide)⟩



/-- C10 (amended): whenever a normalizer returns, the output mapping has
exactly the input's keys, in order. -/
theorem normalizers_preserve_keys :
    (∀ x ys, normalizeRecipesSchema x = some ys → ys.map Prod.fst = x.map Prod.fst) ∧
    (∀ x inv ch, normalizeInventorySchema x = some (inv, ch) →
      inv.map Prod.fst = x.map Prod.fst) ∧
    (∀ x ys, normalizeThresholdsSchema x = some ys → ys.map Prod.fst = x.map Prod.fst) := by
  refine ⟨?_, ?_, ?_⟩
  · intro x
    induction x with
    | nil =>
        intro ys h
        simp [normalizeRecipesSchema] at h
        subst h
        rfl
    | cons p rest ih =>
        intro ys h
        obtain ⟨k, v⟩ := p
        unfold normalizeRecipesSchema at h
        split at h
        case h_1 v' tail hv htail =>
          injection h with h
          subst h
          simp [ih tail htail]
        case h_2 => exact absurd h (by simp)
  · intro x
    induction x with
    | nil =>
        intro inv ch h
        simp [normalizeInventorySchema] at h
        obtain ⟨h1, h2⟩ := h
        subst h1
        rfl
    | cons p rest ih =>
        intro inv ch h
        obtain ⟨k, v⟩ := p
        unfold normalizeInventorySchema at h
        split at h
        case h_1 nv ch₁ tail ch₂ hv htail =>
          injection h with h
          cases h
          simp [ih tail ch₂ htail]
        case h_2 => exact absurd h (by simp)
  · intro x
    induction x with
    | nil =>
        intro ys h
        simp [normalizeThresholdsSchema] at h
        subst h
        rfl
    | cons p rest ih =>
        intro ys h
        obtain ⟨k, v⟩ := p
        unfold normalizeThresholdsSchema at h
        split at h
        case h_1 nv tail hv htail =>
          injection h with h
          subst h
          simp [ih tail htail]
        case h_2 => exact absurd h (by simp)

/-- C10 counterexample: on `{"r": {"subrecipes": 5}}` the recipe normalizer
raises (`r["subrecipes"].items()` on an int) and returns no mapping at all,
so it does not return a mapping with the same keys for every input. -/
theorem keyset_counterexample :
    normalizeRecipesSchema [("r", PyVal.dict [("subrecipes", PyVal.num 5)])] = Option.none ∧
    ¬ ∃ ys, normalizeRecipesSchema [("r", PyVal.dict [("subrecipes", PyVal.num 5)])] = some ys := by
  refine ⟨rfl, fun ⟨ys, h⟩ => ?_⟩
  rw [show normalizeRecipesSchema [("r", PyVal.dict [("subrecipes", PyVal.num 5)])] =
    Option.none from rfl] at h
  exact Option.noConfusion h

/-- C10 witness: key preservation applied to a concrete threshold mapping. -/
theorem normalizers_preserve_keys_witness :
    normalizeThresholdsSchema [("a", PyVal.num 3)] =
      some [("a", PyVal.dict [("min", PyVal.num 3), ("unit", PyVal.str "grams")])] ∧
    [("a", PyVal.dict [("min", PyVal.num 3), ("unit", PyVal.str "grams")])].map Prod.fst =
      [("a", PyVal.num 3)].map Prod.fst :=
  ⟨rfl, normalizers_preserve_keys.2.2 [("a", PyVal.num 3)]
    [("a", PyVal.dict [("min", PyVal.num 3), ("unit", PyVal.str "grams")])] rfl⟩


/-! ### Scaling arithmetic, walker and persistence claims -/


theorem abs_pyRound_sub (x : ℚ) : |(pyRound x : ℚ) - x| ≤ 1 / 2 := by
  have h0 : (⌊x⌋ : ℚ) ≤ x := Int.floor_le x
  have h1 : x < ⌊x⌋ + 1 := Int.lt_floor_add_one x
  unfold pyRound
  split
  case isTrue h =>
    rw [abs_le]
    constructor <;> linarith
  case isFalse h =>
    split
    case isTrue h' =>
      rw [abs_le]
      push_cast
      constructor <;> linarith
    case isFalse h' =>
      have hx : x - ⌊x⌋ = 1 / 2 := by linarith
      split
      case isTrue h2 =>
        rw [abs_le]
        constructor <;> linarith
      case isFalse h2 =>
        rw [abs_le]
        push_cast
        constructor <;> linarith

theorem abs_round2_sub (x : ℚ) : |round2 x - x| ≤ 1 / 200 := by
  have h := abs_pyRound_sub (100 * x)
  unfold round2
  rw [show (pyRound (100 * x) : ℚ) / 100 - x = ((pyRound (100 * x) : ℚ) - 100 * x) / 100 by
    ring]
  rw [abs_div]
  rw [show |(100 : ℚ)| = 100 by norm_num]
  linarith

theorem sum_map_round2_err (l : List ℚ) :
    |(l.map round2).sum - l.sum| ≤ l.length * (1 / 200) := by
  induction l with
  | nil => simp
  | cons a rest ih =>
      simp only [List.map_cons, List.sum_cons, List.length_cons]
      have h := abs_round2_sub a
      have habs : |round2 a + (rest.map round2).sum - (a + rest.sum)| ≤
          |round2 a - a| + |(rest.map round2).sum - rest.sum| := by
        rw [show round2 a + (rest.map round2).sum - (a + rest.sum) =
          (round2 a - a) + ((rest.map round2).sum - rest.sum) by ring]
        exact abs_add _ _
      push_cast
      push_cast at ih
      linarith

theorem sum_map_snd_mul (ings : List (String × ℚ)) (f : ℚ) :
    (ings.map (fun p => p.2 * f)).sum = origWeight ings * f := by
  unfold origWeight
  induction ings with
  | nil => simp
  | cons p rest ih =>
      simp only [List.map_cons, List.sum_cons, ih]
      ring

theorem sumScaled_eq (ings : List (String × ℚ)) (f : ℚ) :
    sumScaled ings f = ((ings.map (fun p => p.2 * f)).map round2).sum := by
  unfold sumScaled scaledIngs
  rw [List.map_map, List.map_map]
  rfl



/-- C2: scaling a positive-weight recipe to target weight `T` with factor
`T / original_weight` and 2-decimal rounding yields a summed total within
`0.02 * (number of ingredients)` grams of `T`, both for the raw sum of the
rounded quantities and for the rounded total. -/
theorem target_weight_scaling_close (ings : List (String × ℚ)) (T : ℚ)
    (hW : 0 < origWeight ings) :
    |sumScaled ings (T / origWeight ings) - T| ≤ 2 / 100 * ings.length ∧
    |totalScaled ings (T / origWeight ings) - T| ≤ 2 / 100 * ings.length := by
  have hne : origWeight ings ≠ 0 := ne_of_gt hW
  set f := T / origWeight ings with hf
  have hlsum : (ings.map (fun p => p.2 * f)).sum = T := by
    rw [sum_map_snd_mul, hf]
    field_simp
  have herr := sum_map_round2_err (ings.map (fun p => p.2 * f))
  rw [hlsum, List.length_map] at herr
  have hS : |sumScaled ings f - T| ≤ ings.length * (1 / 200) := by
    rw [sumScaled_eq]
    exact herr
  have hn1 : 1 ≤ ings.length := by
    rcases ings with _ | ⟨p, rest⟩
    · simp [origWeight] at hW
    · simp
  have hcast : (1 : ℚ) ≤ (ings.length : ℚ) := by exact_mod_cast hn1
  constructor
  · linarith
  · have h2 := abs_round2_sub (sumScaled ings f)
    have h3 : |totalScaled ings f - T| ≤
        |totalScaled ings f - sumScaled ings f| + |sumScaled ings f - T| :=
      abs_sub_le _ _ _
    unfold totalScaled at h3 ⊢
    linarith

theorem target_weight_scaling_witness :
    0 < origWeight [("milk", (1000 : ℚ)), ("sugar", 500)] ∧
    (|sumScaled [("milk", (1000 : ℚ)), ("sugar", 500)]
        (3000 / origWeight [("milk", (1000 : ℚ)), ("sugar", 500)]) - 3000| ≤
      2 / 100 * ([("milk", (1000 : ℚ)), ("sugar", 500)] : List (String × ℚ)).length ∧
    |totalScaled [("milk", (1000 : ℚ)), ("sugar", 500)]
        (3000 / origWeight [("milk", (1000 : ℚ)), ("sugar", 500)]) - 3000| ≤
      2 / 100 * ([("milk", (1000 : ℚ)), ("sugar", 500)] : List (String × ℚ)).length) :=
  ⟨by norm_num [origWeight],
   target_weight_scaling_close [("milk", (1000 : ℚ)), ("sugar", 500)] 3000
     (by norm_num [origWeight])⟩



theorem foldl_min_le_init (a : ℚ) (l : List ℚ) : l.foldl min a ≤ a := by
  induction l generalizing a with
  | nil => exact le_refl a
  | cons b rest ih =>
      simp only [List.foldl_cons]
      exact le_trans (ih (min a b)) (min_le_left a b)

theorem foldl_min_le_mem (a r : ℚ) (l : List ℚ) (h : r ∈ l) : l.foldl min a ≤ r := by
  induction l generalizing a with
  | nil => cases h
  | cons b rest ih =>
      simp only [List.foldl_cons]
      rcases List.mem_cons.mp h with h | h
      · subst h
        exact le_trans (foldl_min_le_init (min a r) rest) (min_le_right a r)
      · exact ih _ h

theorem foldl_min_mem (a : ℚ) (l : List ℚ) : l.foldl min a = a ∨ l.foldl min a ∈ l := by
  induction l generalizing a with
  | nil => exact Or.inl rfl
  | cons b rest ih =>
      simp only [List.foldl_cons]
      rcases ih (min a b) with h | h
      · rcases le_total a b with hab | hab
        · exact Or.inl (by rw [h, min_eq_left hab])
        · exact Or.inr (by rw [h, min_eq_right hab]; exact List.mem_cons_self _ _)
      · exact Or.inr (List.mem_cons_of_mem _ h)

theorem lookupA_map_val {β γ : Type} (l : List (String × β)) (g : β → γ) (k : String) :
    lookupA (l.map (fun p => (p.1, g p.2))) k = (lookupA l k).map g := by
  induction l with
  | nil => rfl
  | cons p rest ih =>
      obtain ⟨k₀, v₀⟩ := p
      by_cases hk : k₀ = k
      · simp [lookupA, hk]
      · simp [lookupA, hk, ih]

theorem constrScaleFactor_le (base avail : List (String × ℚ)) (p : String × ℚ)
    (hp : p ∈ avail) (b : ℚ) (hb : lookupA base p.1 = some b) (hbne : b ≠ 0) :
    constrScaleFactor base avail ≤ p.2 / b := by
  have hmem : p.2 / b ∈ ratioList base avail :=
    List.mem_filterMap.mpr ⟨p, hp, by simp [ratioList, hb, hbne]⟩
  unfold constrScaleFactor
  cases hrl : ratioList base avail with
  | nil =>
      rw [hrl] at hmem
      cases hmem
  | cons r rs =>
      rw [hrl] at hmem
      show (listMin (r :: rs)).getD 1 ≤ p.2 / b
      simp only [listMin, Option.getD_some]
      rcases List.mem_cons.mp hmem with h | h
      · rw [h]
        exact foldl_min_le_init r rs
      · exact foldl_min_le_mem r _ rs h

theorem constrScaleFactor_attained (base avail : List (String × ℚ)) :
    constrScaleFactor base avail = 1 ∨
      constrScaleFactor base avail ∈ ratioList base avail := by
  unfold constrScaleFactor
  cases hrl : ratioList base avail with
  | nil => exact Or.inl rfl
  | cons r rs =>
      right
      simp only [listMin, Option.getD_some]
      rcases foldl_min_mem r rs with h | h
      · rw [h]
        exact List.mem_cons_self _ _
      · exact List.mem_cons_of_mem _ h

theorem pyRound_le_add_half (x : ℚ) : (pyRound x : ℚ) ≤ x + 1 / 2 := by
  have h := abs_pyRound_sub x
  have h2 := (abs_le.mp h).2
  linarith



/-- C3 (amended): the scale factor is the minimum availability ratio (1 when
no ratio exists), the pre-rounding scaled quantity `base * f` never exceeds
the available amount for any ingredient present in both mappings with
non-negative base and availability, and the whole-number-rounded scaled
quantity exceeds the available amount by at most 0.5. -/
theorem constrained_scaling_min_and_bounds (base avail : List (String × ℚ)) :
    (∀ p ∈ avail, ∀ b, lookupA base p.1 = some b → b ≠ 0 →
        constrScaleFactor base avail ≤ p.2 / b) ∧
    (constrScaleFactor base avail = 1 ∨
      constrScaleFactor base avail ∈ ratioList base avail) ∧
    (∀ p ∈ avail, ∀ b, lookupA base p.1 = some b → 0 ≤ b → 0 ≤ p.2 →
        b * constrScaleFactor base avail ≤ p.2 ∧
        lookupA (adjustIngs base (constrScaleFactor base avail)) p.1 =
          some (pyRound (b * constrScaleFactor base avail)) ∧
        (pyRound (b * constrScaleFactor base avail) : ℚ) ≤ p.2 + 1 / 2) := by
  refine ⟨fun p hp b hb hbne => constrScaleFactor_le base avail p hp b hb hbne,
    constrScaleFactor_attained base avail, fun p hp b hb hb0 hp2 => ?_⟩
  have hmul : b * constrScaleFactor base avail ≤ p.2 := by
    rcases eq_or_ne b 0 with h0 | h0
    · rw [h0, zero_mul]
      exact hp2
    · have hbpos : 0 < b := lt_of_le_of_ne hb0 (Ne.symm h0)
      have hle := constrScaleFactor_le base avail p hp b hb h0
      rw [le_div_iff₀ hbpos] at hle
      linarith
  refine ⟨hmul, ?_, ?_⟩
  · unfold adjustIngs
    rw [lookupA_map_val base (fun v => pyRound (v * constrScaleFactor base avail)) p.1, hb]
    rfl
  · have := pyRound_le_add_half (b * constrScaleFactor base avail)
    linarith

theorem constrScaleFactor_cex_value :
    constrScaleFactor [("a", 3)] [("a", 8 / 5)] = 8 / 15 := by
  simp [constrScaleFactor, ratioList, listMin, lookupA]
  norm_num

/-- C3 counterexample: base `{a: 3}`, available `{a: 1.6}` gives
`f = 8/15`, and the rounded quantity `round(3 * 8/15) = round(1.6) = 2`
exceeds the available `1.6`, so a scaled quantity can exceed what is on
hand. -/
theorem constrained_scaling_rounding_exceeds :
    constrScaleFactor [("a", 3)] [("a", 8 / 5)] = 8 / 15 ∧
    lookupA (adjustRecipeWithConstraints [("a", 3)] [("a", 8 / 5)]).1 "a" = some 2 ∧
    ¬ ((2 : ℚ) ≤ 8 / 5) := by
  refine ⟨constrScaleFactor_cex_value, ?_, by norm_num⟩
  show lookupA (adjustIngs [("a", 3)] (constrScaleFactor [("a", 3)] [("a", 8 / 5)])) "a" =
    some 2
  rw [constrScaleFactor_cex_value]
  show (if "a" = "a" then some (pyRound ((3 : ℚ) * (8 / 15))) else Option.none) = some 2
  rw [if_pos rfl, show (3 : ℚ) * (8 / 15) = 8 / 5 by norm_num]
  norm_num [pyRound]

/-- C3 witness: the amended theorem applied to the spec's own example,
base `{milk: 1000, sugar: 500}` and available `{milk: 400, sugar: 300}`. -/
theorem constrained_scaling_witness :
    ("milk", (400 : ℚ)) ∈ [("milk", (400 : ℚ)), ("sugar", 300)] ∧
    lookupA [("milk", (1000 : ℚ)), ("sugar", 500)] "milk" = some 1000 ∧
    1000 * constrScaleFactor [("milk", (1000 : ℚ)), ("sugar", 500)]
        [("milk", (400 : ℚ)), ("sugar", 300)] ≤ 400 := by
  refine ⟨by simp, by simp [lookupA], ?_⟩
  have h := ((constrained_scaling_min_and_bounds [("milk", (1000 : ℚ)), ("sugar", 500)]
    [("milk", (400 : ℚ)), ("sugar", 300)]).2.2 ("milk", (400 : ℚ)) (by simp) 1000
    (by simp [lookupA]) (by norm_num) (by norm_num)).1
  exact h



/-- C4: evaluating the code at the failing input.  The utility
`scale_recipe_to_target_weight` divides by the original weight with no
guard, so a zero-weight recipe raises `ZeroDivisionError` (`Option.none`),
while the interactive target-weight branch (line 2071) follows the claim
and falls back to scale factor 1. -/
theorem scale_to_target_zero_weight_divzero :
    scaleRecipeToTargetWeight [("water", 0)] 1000 = Option.none ∧
    uiTargetScaleFactor 0 1000 = 1 := by
  constructor
  · simp [scaleRecipeToTargetWeight, origWeight]
  · simp [uiTargetScaleFactor]

/-- C8: in every walker state reachable from `not started` through the
start/next/back/reset/start-over transitions, the cursor never exceeds the
length of the captured ingredient order (so `in progress` states satisfy
`cursor < length` and the complete state has `cursor = length`). -/
theorem walker_cursor_bound (order₀ : List String) (s : WalkerState)
    (h : WalkerReachable ⟨Option.none, order₀⟩ s) :
    ∀ k, s.step = some k → k ≤ s.order.length := by
  induction h with
  | refl =>
      intro k hk
      exact absurd hk (by simp)
  | tail hr hstep ih =>
      cases hstep with
      | start newOrder =>
          intro k hk
          injection hk with hk
          omega
      | next k' h' hlt =>
          intro k hk
          injection hk with hk
          simp at hk ⊢
          omega
      | back k' h' hlt hne =>
          intro k hk
          injection hk with hk
          simp at hk ⊢
          omega
      | reset k' h' hlt =>
          intro k hk
          exact absurd hk (by simp)
      | startOver k' h' hge =>
          intro k hk
          injection hk with hk
          omega

/-- C8 witness: the spec's example run, `start` with order
`[milk, sugar, cream]` followed by three `next` steps, reaches cursor 3,
which equals the order length (the complete state). -/
theorem walker_cursor_bound_witness :
    WalkerReachable ⟨Option.none, []⟩ ⟨some 3, ["milk", "sugar", "cream"]⟩ ∧
    3 ≤ (WalkerState.mk (some 3) ["milk", "sugar", "cream"]).order.length := by
  have h1 : WStep ⟨Option.none, []⟩ ⟨some 0, ["milk", "sugar", "cream"]⟩ :=
    WStep.start _ _
  have h2 : WStep ⟨some 0, ["milk", "sugar", "cream"]⟩ ⟨some 1, ["milk", "sugar", "cream"]⟩ :=
    WStep.next _ 0 rfl (by simp)
  have h3 : WStep ⟨some 1, ["milk", "sugar", "cream"]⟩ ⟨some 2, ["milk", "sugar", "cream"]⟩ :=
    WStep.next _ 1 rfl (by simp)
  have h4 : WStep ⟨some 2, ["milk", "sugar", "cream"]⟩ ⟨some 3, ["milk", "sugar", "cream"]⟩ :=
    WStep.next _ 2 rfl (by simp)
  have hr : WalkerReachable ⟨Option.none, []⟩ ⟨some 3, ["milk", "sugar", "cream"]⟩ :=
    Relation.ReflTransGen.tail
      (Relation.ReflTransGen.tail
        (Relation.ReflTransGen.tail (Relation.ReflTransGen.single h1) h2) h3) h4
  exact ⟨hr, walker_cursor_bound [] ⟨some 3, ["milk", "sugar", "cream"]⟩ hr 3 rfl⟩

/-- C9 counterexample: `load_json` on a corrupt (existing but unparsable)
document returns the supplied default and never an error, contradicting the
claim that the decode error is surfaced and the load halted. -/
theorem load_json_defaults_on_corrupt :
    loadJson FileState.corrupt (PyVal.dict []) = Except.ok (PyVal.dict []) ∧
    ∀ e, loadJson FileState.corrupt (PyVal.dict []) ≠ Except.error e := by
  exact ⟨rfl, fun e h => Except.noConfusion h⟩

/-- C9 (amended): malformed JSON in documents loaded through `load_json` is
silently replaced by the caller's default; only the primary recipes load
(`load_recipes`) lets the decode error propagate and halt that load. -/
theorem load_json_surfaces_only_for_recipes (d : PyVal) :
    loadJson FileState.corrupt d = Except.ok d ∧
    loadRecipes FileState.corrupt = Except.error "JSONDecodeError" :=
  ⟨rfl, rfl⟩


end IceCream
